import Mathlib

/-!
Shallow embedding of `src/daily_log_runner.py` and `src/systemd_installer.py`.

`daily_log_runner.py` supervises a child process and routes each output line
to a per-day log file.  Wall-clock time enters the Python code only through
`datetime.date.today()`, called once per line inside `daily_log_path`; the
embedding therefore threads the date observed at each line explicitly: a
child output line is an `Entry` carrying the ISO date string current at the
moment the line is read together with the line's text.  Filesystem side
effects are recorded as an explicit event trace (`Ev`), and a small file
system semantics (`Fs`, `applyEv`) interprets the trace, distinguishing
buffered from durable data so that flush behaviour is observable.
-/

namespace DailyLogRunner

/-- A filesystem path, as the string Python's `Path` renders to. -/
abbrev FPath := String

/-- Python's `s.startswith(t)`: `t`'s characters are an initial segment of
`s`'s. -/
def strStartsWith (s t : String) : Bool :=
  t.data.isPrefixOf s.data

/-- Function `normalize_extension` (daily_log_runner.py lines 42-45): empty extension
becomes `.log`; an extension without a leading dot gets one prepended;
otherwise unchanged. -/
def normalizeExtension (extension : String) : String :=
  if extension = "" then ".log"
  else if strStartsWith extension "." then extension
  else "." ++ extension

/-- Function `normalize_command` (daily_log_runner.py lines 48-51): drop the first
element when it is exactly `"--"`, otherwise return the vector unchanged. -/
def normalizeCommand (command : List String) : List String :=
  match command with
  | [] => []
  | first :: rest => if first = "--" then rest else first :: rest

/-- Function `daily_log_path` (daily_log_runner.py lines 54-56):
`log_dir / f"{log_prefix}-{day}{log_extension}"`, where `day` is
`datetime.date.today().isoformat()` at the moment of the call. -/
def dailyLogPath (logDir logPre logExt day : String) : FPath :=
  logDir ++ "/" ++ (logPre ++ "-" ++ day ++ logExt)

/-- One line of child output: the ISO date current when the line was read,
and the line's text. -/
structure Entry where
  day : String
  line : String
deriving Repr, DecidableEq

/-- A filesystem event performed by the runner, in program order. -/
inductive Ev where
  /-- Event for `log_dir.mkdir(parents=True, exist_ok=True)`. -/
  | mkdirp (p : FPath)
  /-- Event for `path.open("a", ...)`: open in append mode. -/
  | openA (p : FPath)
  /-- Event for `file.close()`. -/
  | close (p : FPath)
  /-- Event for `file.write(line)`. -/
  | write (p : FPath) (s : String)
  /-- Event for `file.flush()`. -/
  | flush (p : FPath)
deriving Repr, DecidableEq

/-- The close events emitted for an optional currently-open handle. -/
def closeEvts : Option FPath → List Ev
  | some p => [Ev.close p]
  | none => []

/-- The rotating writer's loop state: the path of the currently open handle
(`current_log_path`) and the trace of filesystem events so far. -/
structure WState where
  currentLogPath : Option FPath
  events : List Ev
deriving Repr, DecidableEq

/-- Lines 84-89 of the loop body: recompute today's target path; when it
differs from the open handle's path (or none is open), close the old handle
and open the target in append mode. -/
def selectHandle (logDir logPre logExt : String) (st : WState) (day : String) : WState :=
  let target := dailyLogPath logDir logPre logExt day
  if st.currentLogPath = some target then st
  else { currentLogPath := some target
         events := st.events ++ closeEvts st.currentLogPath ++ [Ev.openA target] }

/-- Lines 84-92, one iteration of the read loop: select the handle for the
line's date, write the line to it, flush. -/
def appendLine (logDir logPre logExt : String) (st : WState) (e : Entry) : WState :=
  let target := dailyLogPath logDir logPre logExt e.day
  let st' := selectHandle logDir logPre logExt st e.day
  { st' with events := st'.events ++ [Ev.write target e.line, Ev.flush target] }

/-- The writer state after the loop has consumed `entries`. -/
def runWriter (logDir logPre logExt : String) (entries : List Entry) : WState :=
  entries.foldl (appendLine logDir logPre logExt) ⟨none, []⟩

/-- The event trace the loop alone produces on `entries`. -/
def writerEvents (logDir logPre logExt : String) (entries : List Entry) : List Ev :=
  (runWriter logDir logPre logExt entries).events

/-- How the child behaves during one invocation of `run_with_daily_logs`:
it fails to launch (`Popen` raises `FileNotFoundError`); or it emits
`entries` and exits with `exitCode`; or an external interrupt
(`KeyboardInterrupt`) arrives after `entries` lines, `stillRunning` telling
whether `process.poll()` still finds the child alive (its eventual own exit
status being `childExit`); or writing the line `failing` raises an IO error
after `processed` lines succeeded. -/
inductive ChildBehavior where
  | launchFailure
  | completes (entries : List Entry) (exitCode : Int)
  | interrupted (entries : List Entry) (stillRunning : Bool) (childExit : Int)
  | ioErrorAtWrite (processed : List Entry) (failing : Entry)
deriving Repr

/-- What one invocation of `run_with_daily_logs` did: `outcome` is
`some code` when the function returned `code`, `none` when an exception
propagated to the caller; `events` the filesystem trace; the Booleans record
whether the child's merged-output stream handle was ever created, whether it
was closed in the `finally` block, whether `process.terminate()` was called,
and whether `process.wait()` was called. -/
structure RunResult where
  outcome : Option Int
  events : List Ev
  streamOpened : Bool
  streamClosed : Bool
  terminateRequested : Bool
  waitedForChild : Bool
deriving Repr, DecidableEq

/-- Function `run_with_daily_logs` (daily_log_runner.py lines 59-108), as a function
of the child's behavior.  `mkdir` runs before `Popen`, so a launch failure
still creates the directory but opens no stream and writes nothing; on
normal stream end the child's own exit status is returned after `wait`; on
`KeyboardInterrupt` the child is terminated and waited for only if still
running and 130 is returned; an IO error during a write propagates (outcome
`none`) after the `finally` block closes the stream and the open log file. -/
def runWithDailyLogs (logDir logPre logExt : String) (b : ChildBehavior) : RunResult :=
  match b with
  | .launchFailure =>
      { outcome := none
        events := [Ev.mkdirp logDir]
        streamOpened := false, streamClosed := false
        terminateRequested := false, waitedForChild := false }
  | .completes entries exitCode =>
      let st := runWriter logDir logPre logExt entries
      { outcome := some exitCode
        events := Ev.mkdirp logDir :: (st.events ++ closeEvts st.currentLogPath)
        streamOpened := true, streamClosed := true
        terminateRequested := false, waitedForChild := true }
  | .interrupted entries stillRunning _childExit =>
      let st := runWriter logDir logPre logExt entries
      { outcome := some 130
        events := Ev.mkdirp logDir :: (st.events ++ closeEvts st.currentLogPath)
        streamOpened := true, streamClosed := true
        terminateRequested := stillRunning, waitedForChild := stillRunning }
  | .ioErrorAtWrite processed failing =>
      let st := runWriter logDir logPre logExt processed
      let st' := selectHandle logDir logPre logExt st failing.day
      { outcome := none
        events := Ev.mkdirp logDir :: (st'.events ++ closeEvts st'.currentLogPath)
        streamOpened := true, streamClosed := true
        terminateRequested := false, waitedForChild := false }

/-- Function `main` (daily_log_runner.py lines 111-134): the run's own return value
when it returns; 1 when `FileNotFoundError` or any other exception
propagates out of it. -/
def mainExitCode (logDir logPre logExt : String) (b : ChildBehavior) : Int :=
  match (runWithDailyLogs logDir logPre logExt b).outcome with
  | some code => code
  | none => 1

/-- The sequence of strings written to path `p` in trace `evs`, in order. -/
def writesTo (p : FPath) (evs : List Ev) : List String :=
  evs.filterMap fun e =>
    match e with
    | Ev.write q s => if q = p then some s else none
    | _ => none

/-- The state of one file: data already pushed to the OS (`durable`) and data
still sitting in the user-space buffer (`buffer`).  A crash loses `buffer`
and keeps `durable`. -/
structure FsFile where
  durable : List String
  buffer : List String
deriving Repr, DecidableEq

/-- The filesystem: a file state for every path. -/
def Fs : Type := FPath → FsFile

/-- A filesystem whose files hold durable contents `d` and empty buffers. -/
def initFs (d : FPath → List String) : Fs := fun p => ⟨d p, []⟩

/-- The filesystem in which every file is empty. -/
def emptyFs : Fs := initFs fun _ => []

/-- Interpret one event, with Python file semantics: opening in append mode
keeps existing contents, a write lands in the buffer, a flush pushes the
buffer to durable storage, and close flushes before releasing the handle. -/
def applyEv (fs : Fs) : Ev → Fs
  | .mkdirp _ => fs
  | .openA _ => fs
  | .close p => fun q => if q = p then ⟨(fs p).durable ++ (fs p).buffer, []⟩ else fs q
  | .write p s => fun q => if q = p then ⟨(fs p).durable, (fs p).buffer ++ [s]⟩ else fs q
  | .flush p => fun q => if q = p then ⟨(fs p).durable ++ (fs p).buffer, []⟩ else fs q

/-- Interpret a trace left to right. -/
def applyEvs (fs : Fs) (evs : List Ev) : Fs :=
  evs.foldl applyEv fs

/-- Every file's buffer is empty: nothing would be lost by a crash. -/
def buffersEmpty (fs : Fs) : Prop :=
  ∀ p, (fs p).buffer = []

/-- Every `write` in the trace is immediately followed by a `flush` of the
same path. -/
def flushAfterWrite : List Ev → Prop
  | [] => True
  | Ev.write p _ :: rest => (∃ r, rest = Ev.flush p :: r) ∧ flushAfterWrite rest
  | _ :: rest => flushAfterWrite rest

/-- Starting from filesystem `fs`, every `close` in the trace hits a file
whose buffer is already empty: no close ever has buffered data left to
lose. -/
def closesFlushed (fs : Fs) : List Ev → Prop
  | [] => True
  | e :: rest => (∀ p, e = Ev.close p → (fs p).buffer = []) ∧ closesFlushed (applyEv fs e) rest

/-- Replay a trace tracking the open log-file handle: `none` as final answer
means the trace is ill-formed (a second handle opened while one is open, or
a close of a handle that is not the open one); `some o` means the trace is
well formed and leaves handle `o` open. -/
def runHandles : Option FPath → List Ev → Option (Option FPath)
  | o, [] => some o
  | none, Ev.openA p :: rest => runHandles (some p) rest
  | some _, Ev.openA _ :: _ => none
  | some q, Ev.close p :: rest => if p = q then runHandles none rest else none
  | none, Ev.close _ :: _ => none
  | o, Ev.mkdirp _ :: rest => runHandles o rest
  | o, Ev.write _ _ :: rest => runHandles o rest
  | o, Ev.flush _ :: rest => runHandles o rest

end DailyLogRunner

namespace SystemdInstaller

/-- Function `normalize_recorder_args` (systemd_installer.py lines 111-115): drop
every `"--"` element, then append `"-no-update-check"` when absent. -/
def normalizeRecorderArgs (recorderArgs : List String) : List String :=
  let args := recorderArgs.filter fun arg => arg ≠ "--"
  if "-no-update-check" ∈ args then args else args ++ ["-no-update-check"]

/-- The argument vector `build_exec_start` (systemd_installer.py lines
124-140) assembles before rendering it with `shlex.join`; the config's
`recorder_args` field is always `normalize_recorder_args` of the raw
payload arguments (systemd_installer.py line 272). -/
def buildExecStartArgs (pythonBin logRunnerScript logDir logPre logExt mainScript : String)
    (recorderArgs : List String) : List String :=
  [pythonBin, logRunnerScript, "--log-dir", logDir, "--log-prefix", logPre,
   "--log-extension", logExt, "--", pythonBin, mainScript] ++ recorderArgs

end SystemdInstaller

namespace DailyLogRunner

/-- Two distinct dates yield two distinct daily log paths (for one fixed
directory, prefix and extension). -/
theorem dailyLogPath_inj_day (logDir logPre logExt d1 d2 : String)
    (h : dailyLogPath logDir logPre logExt d1 = dailyLogPath logDir logPre logExt d2) :
    d1 = d2 := by
  unfold dailyLogPath at h
  have h2 := congrArg String.data h
  simp only [String.data_append, List.append_assoc] at h2
  have h3 := List.append_cancel_left (List.append_cancel_left
    (List.append_cancel_left (List.append_cancel_left h2)))
  exact String.ext (List.append_cancel_right h3)

/-- After selecting the handle for `day`, the open handle's path is the
target computed for `day`. -/
theorem selectHandle_currentLogPath (logDir logPre logExt : String) (st : WState) (day : String) :
    (selectHandle logDir logPre logExt st day).currentLogPath
      = some (dailyLogPath logDir logPre logExt day) := by
  unfold selectHandle
  by_cases h : st.currentLogPath = some (dailyLogPath logDir logPre logExt day)
  · simp [h]
  · simp [h]

/-- After appending a line, the open handle's path is the target computed
for that line's date. -/
theorem appendLine_currentLogPath (logDir logPre logExt : String) (st : WState) (e : Entry) :
    (appendLine logDir logPre logExt st e).currentLogPath
      = some (dailyLogPath logDir logPre logExt e.day) := by
  unfold appendLine
  exact selectHandle_currentLogPath logDir logPre logExt st e.day

/-- An append only ever extends the trace. -/
theorem appendLine_events (logDir logPre logExt : String) (st : WState) (e : Entry) :
    ∃ t : List Ev, (appendLine logDir logPre logExt st e).events = st.events ++ t := by
  unfold appendLine selectHandle
  by_cases h : st.currentLogPath = some (dailyLogPath logDir logPre logExt e.day)
  · exact ⟨[Ev.write (dailyLogPath logDir logPre logExt e.day) e.line,
      Ev.flush (dailyLogPath logDir logPre logExt e.day)], by simp [h]⟩
  · exact ⟨closeEvts st.currentLogPath ++
      [Ev.openA (dailyLogPath logDir logPre logExt e.day),
       Ev.write (dailyLogPath logDir logPre logExt e.day) e.line,
       Ev.flush (dailyLogPath logDir logPre logExt e.day)], by simp [h]⟩

/-- The loop only ever extends the trace. -/
theorem foldl_appendLine_events (logDir logPre logExt : String) :
    ∀ (l : List Entry) (st : WState),
      ∃ t : List Ev, (List.foldl (appendLine logDir logPre logExt) st l).events = st.events ++ t
  | [], st => ⟨[], by simp⟩
  | e :: l, st => by
      obtain ⟨t1, h1⟩ := appendLine_events logDir logPre logExt st e
      obtain ⟨t2, h2⟩ := foldl_appendLine_events logDir logPre logExt l
        (appendLine logDir logPre logExt st e)
      exact ⟨t1 ++ t2, by simp [List.foldl_cons, h2, h1, List.append_assoc]⟩

/-- The writes to a path distribute over trace concatenation. -/
theorem writesTo_append (p : FPath) (l1 l2 : List Ev) :
    writesTo p (l1 ++ l2) = writesTo p l1 ++ writesTo p l2 := by
  unfold writesTo
  exact List.filterMap_append l1 l2 _

/-- One append adds one write, to the path computed for the line's date,
and no other write. -/
theorem writesTo_appendLine (logDir logPre logExt : String) (st : WState) (e : Entry)
    (p : FPath) :
    writesTo p (appendLine logDir logPre logExt st e).events
      = writesTo p st.events
          ++ (if dailyLogPath logDir logPre logExt e.day = p then [e.line] else []) := by
  unfold appendLine selectHandle
  by_cases h : st.currentLogPath = some (dailyLogPath logDir logPre logExt e.day)
  · simp only [h, if_pos rfl, writesTo_append]
    by_cases hp : dailyLogPath logDir logPre logExt e.day = p <;>
      simp [writesTo, hp]
  · simp only [h, if_neg, writesTo_append, List.append_assoc]
    rcases st.currentLogPath with _ | q <;>
      by_cases hp : dailyLogPath logDir logPre logExt e.day = p <;>
        simp [writesTo, closeEvts, hp, h]

/-- The loop's trace writes to each path exactly the lines whose computed
destination is that path, in order. -/
theorem writesTo_foldl (logDir logPre logExt : String) :
    ∀ (l : List Entry) (st : WState) (p : FPath),
      writesTo p (List.foldl (appendLine logDir logPre logExt) st l).events
        = writesTo p st.events
            ++ (l.filter fun e => dailyLogPath logDir logPre logExt e.day = p).map Entry.line
  | [], st, p => by simp
  | e :: l, st, p => by
      rw [List.foldl_cons, writesTo_foldl logDir logPre logExt l _ p,
        writesTo_appendLine]
      by_cases hp : dailyLogPath logDir logPre logExt e.day = p <;>
        simp [hp, List.filter_cons, List.append_assoc]

/-- The full run writes to each path exactly the lines routed to it:
`mkdir` and the final close add no writes. -/
theorem writesTo_run (logDir logPre logExt : String) (entries : List Entry) (code : Int)
    (p : FPath) :
    writesTo p (runWithDailyLogs logDir logPre logExt (.completes entries code)).events
      = ((entries.filter fun e => dailyLogPath logDir logPre logExt e.day = p).map Entry.line) := by
  show writesTo p (Ev.mkdirp logDir :: (_ ++ closeEvts _)) = _
  have : ∀ l1 l2 : List Ev, writesTo p (Ev.mkdirp logDir :: (l1 ++ l2)) =
      writesTo p l1 ++ writesTo p l2 := by
    intro l1 l2
    simp [writesTo, List.filterMap_append]
  rw [this]
  have hw := writesTo_foldl logDir logPre logExt entries ⟨none, []⟩ p
  have hcl : writesTo p (closeEvts (runWriter logDir logPre logExt entries).currentLogPath)
      = [] := by
    rcases (runWriter logDir logPre logExt entries).currentLogPath with _ | q <;>
      simp [closeEvts, writesTo]
  rw [hcl]
  simpa [runWriter, writesTo] using hw

/-- A write event in a trace contributes to `writesTo` of its path. -/
theorem mem_writesTo_of_write_mem (p : FPath) (s : String) (evs : List Ev)
    (h : Ev.write p s ∈ evs) : s ∈ writesTo p evs := by
  unfold writesTo
  exact List.mem_filterMap.mpr ⟨Ev.write p s, h, by simp⟩

/-- C7: the computed log file path is exactly
`<dir>/<pre>-<YYYY-MM-DD><ext>` inside the given directory; the date used
for a line is the one observed at the moment that line is appended (every
write event of a run carries the text of some child line and targets the
path computed from that same line's date); and the concrete scenario —
prefix `job`, extension omitted (argparse default `.log`), directory
`/tmp/logs`, child emitting `hello\n` on 2024-01-01 — writes
`/tmp/logs/job-2024-01-01.log` durably containing exactly that line, with
exit code 0. -/
theorem c7_daily_log_path_format :
    (∀ logDir logPre logExt day : String,
        dailyLogPath logDir logPre logExt day
          = logDir ++ "/" ++ (logPre ++ "-" ++ day ++ logExt))
    ∧ (∀ logDir logPre logExt : String, ∀ entries : List Entry, ∀ code : Int,
        ∀ p : FPath, ∀ s : String,
        Ev.write p s ∈ (runWithDailyLogs logDir logPre logExt (.completes entries code)).events →
          ∃ e ∈ entries, p = dailyLogPath logDir logPre logExt e.day ∧ s = e.line)
    ∧ dailyLogPath "/tmp/logs" "job" (normalizeExtension ".log") "2024-01-01"
        = "/tmp/logs/job-2024-01-01.log"
    ∧ (applyEvs emptyFs
          (runWithDailyLogs "/tmp/logs" "job" (normalizeExtension ".log")
            (.completes [⟨"2024-01-01", "hello\n"⟩] 0)).events
          "/tmp/logs/job-2024-01-01.log").durable = ["hello\n"]
    ∧ mainExitCode "/tmp/logs" "job" (normalizeExtension ".log")
        (.completes [⟨"2024-01-01", "hello\n"⟩] 0) = 0 := by
  refine ⟨fun _ _ _ _ => rfl, ?_, by decide, by decide, by decide⟩
  intro logDir logPre logExt entries code p s hmem
  have hs := mem_writesTo_of_write_mem p s _ hmem
  rw [writesTo_run] at hs
  obtain ⟨e, he, hline⟩ := List.mem_map.mp hs
  rw [List.mem_filter] at he
  refine ⟨e, he.1, ?_, hline.symm⟩
  have := of_decide_eq_true he.2
  exact this.symm

/-- C8: extension normalization is total: the empty extension becomes
`.log`; a non-empty extension not beginning with `.` gets `.` prepended
(so `log` becomes `.log`); an extension already beginning with `.` is
returned unchanged. -/
theorem c8_normalize_extension :
    normalizeExtension "" = ".log"
    ∧ (∀ e : String, e ≠ "" → strStartsWith e "." = false →
        normalizeExtension e = "." ++ e)
    ∧ (∀ e : String, strStartsWith e "." = true → normalizeExtension e = e)
    ∧ normalizeExtension "log" = ".log" := by
  refine ⟨by decide, ?_, ?_, by decide⟩
  · intro e hne hdot
    unfold normalizeExtension
    rw [if_neg hne, hdot]
    simp
  · intro e hdot
    have hne : e ≠ "" := by
      intro h0
      subst h0
      exact absurd hdot (by decide)
    unfold normalizeExtension
    rw [if_neg hne, hdot]
    simp

/-- C9: command normalization removes exactly one leading `--`: the empty
vector stays empty, a vector whose first element is exactly `--` loses only
that element, any other vector is unchanged, and a `--` at a later position
is preserved in the result. -/
theorem c9_normalize_command :
    normalizeCommand [] = []
    ∧ (∀ rest : List String, normalizeCommand ("--" :: rest) = rest)
    ∧ (∀ (first : String) (rest : List String), first ≠ "--" →
        normalizeCommand (first :: rest) = first :: rest)
    ∧ (∀ (first : String) (rest : List String), "--" ∈ rest →
        "--" ∈ normalizeCommand (first :: rest)) := by
  refine ⟨rfl, fun rest => by simp [normalizeCommand], ?_, ?_⟩
  · intro first rest h
    simp [normalizeCommand, h]
  · intro first rest h
    by_cases hf : first = "--"
    · subst hf
      simpa [normalizeCommand] using h
    · simp [normalizeCommand, hf]
      exact Or.inr h

/-- C10: the installer's payload normalization removes every `--` element
(not only a leading one), appends `-no-update-check` exactly when it is not
already present, and consequently the argument vector of every rendered
service start command contains `-no-update-check`. -/
theorem c10_recorder_args :
    ∀ raw : List String,
      "--" ∉ SystemdInstaller.normalizeRecorderArgs raw
      ∧ "-no-update-check" ∈ SystemdInstaller.normalizeRecorderArgs raw
      ∧ (∀ a : String, a ≠ "--" → a ∈ raw → a ∈ SystemdInstaller.normalizeRecorderArgs raw)
      ∧ ("-no-update-check" ∈ raw.filter (fun a => a ≠ "--") →
          SystemdInstaller.normalizeRecorderArgs raw = raw.filter fun a => a ≠ "--")
      ∧ ("-no-update-check" ∉ raw.filter (fun a => a ≠ "--") →
          SystemdInstaller.normalizeRecorderArgs raw
            = (raw.filter fun a => a ≠ "--") ++ ["-no-update-check"])
      ∧ (∀ pythonBin logRunnerScript logDir logPre logExt mainScript : String,
          "-no-update-check" ∈ SystemdInstaller.buildExecStartArgs pythonBin logRunnerScript
            logDir logPre logExt mainScript (SystemdInstaller.normalizeRecorderArgs raw)) := by
  intro raw
  by_cases h : "-no-update-check" ∈ raw.filter fun a => a ≠ "--"
  · have hres : SystemdInstaller.normalizeRecorderArgs raw = raw.filter fun a => a ≠ "--" := by
      unfold SystemdInstaller.normalizeRecorderArgs
      rw [if_pos h]
    have hnodd : "--" ∉ SystemdInstaller.normalizeRecorderArgs raw := by
      rw [hres]
      intro hc
      have := (List.mem_filter.mp hc).2
      simp at this
    refine ⟨hnodd, hres ▸ h, ?_, fun _ => hres, fun hc => absurd h hc, ?_⟩
    · intro a ha haraw
      rw [hres]
      exact List.mem_filter.mpr ⟨haraw, by simpa using ha⟩
    · intro pythonBin logRunnerScript logDir logPre logExt mainScript
      unfold SystemdInstaller.buildExecStartArgs
      exact List.mem_append_right _ (hres ▸ h)
  · have hres : SystemdInstaller.normalizeRecorderArgs raw
        = (raw.filter fun a => a ≠ "--") ++ ["-no-update-check"] := by
      unfold SystemdInstaller.normalizeRecorderArgs
      rw [if_neg h]
    have hmem : "-no-update-check" ∈ SystemdInstaller.normalizeRecorderArgs raw := by
      rw [hres]
      exact List.mem_append_right _ (List.mem_singleton.mpr rfl)
    have hnodd : "--" ∉ SystemdInstaller.normalizeRecorderArgs raw := by
      rw [hres]
      intro hc
      rcases List.mem_append.mp hc with hc1 | hc2
      · have := (List.mem_filter.mp hc1).2
        simp at this
      · rw [List.mem_singleton] at hc2
        exact absurd hc2 (by decide)
    refine ⟨hnodd, hmem, ?_, fun hc => absurd hc h, fun _ => hres, ?_⟩
    · intro a ha haraw
      rw [hres]
      exact List.mem_append_left _ (List.mem_filter.mpr ⟨haraw, by simpa using ha⟩)
    · intro pythonBin logRunnerScript logDir logPre logExt mainScript
      unfold SystemdInstaller.buildExecStartArgs
      exact List.mem_append_right _ hmem

/-- Interpreting a concatenated trace interprets the pieces in turn. -/
theorem applyEvs_append (fs : Fs) (l1 l2 : List Ev) :
    applyEvs fs (l1 ++ l2) = applyEvs (applyEvs fs l1) l2 := by
  unfold applyEvs
  exact List.foldl_append _ _ l1 l2

/-- Closing a file whose buffer is empty changes nothing. -/
theorem applyEv_close_of_flushed (g : Fs) (p : FPath) (hg : (g p).buffer = []) :
    applyEv g (Ev.close p) = g := by
  funext q
  by_cases hq : q = p
  · subst hq
    show (if q = q then FsFile.mk ((g q).durable ++ (g q).buffer) [] else g q) = g q
    rw [if_pos rfl, hg, List.append_nil, ← hg]
  · show (if q = p then FsFile.mk ((g p).durable ++ (g p).buffer) [] else g q) = g q
    rw [if_neg hq]

/-- A write immediately followed by a flush, on a filesystem whose target
buffer is empty, appends the written string durably and leaves the buffer
empty. -/
theorem applyEvs_write_flush (g : Fs) (t : FPath) (s : String) (hg : (g t).buffer = [])
    (q : FPath) :
    applyEvs g [Ev.write t s, Ev.flush t] q
      = if q = t then ⟨(g t).durable ++ [s], []⟩ else g q := by
  by_cases hq : q = t
  · subst hq
    simp [applyEvs, applyEv, hg]
  · simp [applyEvs, applyEv, hq]

/-- One append step: on a filesystem where every buffer is empty, it
durably appends the line to its target file, touches no other file, and
leaves every buffer empty. -/
theorem applyEvs_appendLine (logDir logPre logExt : String) (st : WState) (e : Entry)
    (fs0 : Fs) (hg : buffersEmpty (applyEvs fs0 st.events)) :
    buffersEmpty (applyEvs fs0 (appendLine logDir logPre logExt st e).events)
    ∧ ∀ q, (applyEvs fs0 (appendLine logDir logPre logExt st e).events q).durable
        = (applyEvs fs0 st.events q).durable
            ++ (if dailyLogPath logDir logPre logExt e.day = q then [e.line] else []) := by
  set g := applyEvs fs0 st.events with hgdef
  set t := dailyLogPath logDir logPre logExt e.day with htdef
  have key : applyEvs fs0 (appendLine logDir logPre logExt st e).events
      = applyEvs g [Ev.write t e.line, Ev.flush t] := by
    unfold appendLine selectHandle
    by_cases h : st.currentLogPath = some t
    · rw [if_pos h]
      show applyEvs fs0 (st.events ++ [Ev.write t e.line, Ev.flush t]) = _
      rw [applyEvs_append]
    · rw [if_neg h]
      show applyEvs fs0 ((st.events ++ closeEvts st.currentLogPath ++ [Ev.openA t])
          ++ [Ev.write t e.line, Ev.flush t]) = _
      simp only [applyEvs_append]
      have hclose : applyEvs g (closeEvts st.currentLogPath) = g := by
        rcases st.currentLogPath with _ | p
        · rfl
        · show applyEv g (Ev.close p) = g
          exact applyEv_close_of_flushed g p (hg p)
      rw [hclose]
      rfl
  rw [key]
  constructor
  · intro q
    rw [applyEvs_write_flush g t e.line (hg t) q]
    by_cases hq : q = t
    · rw [if_pos hq]
    · rw [if_neg hq]
      exact hg q
  · intro q
    rw [applyEvs_write_flush g t e.line (hg t) q]
    by_cases hq : q = t
    · rw [if_pos hq, hq, if_pos rfl]
    · rw [if_neg hq, if_neg fun hc => hq hc.symm, List.append_nil]

/-- Running the loop from a flushed filesystem keeps every buffer empty and
durably appends to each file exactly the lines routed to it, in order. -/
theorem fs_foldl_invariant (logDir logPre logExt : String) :
    ∀ (l : List Entry) (st : WState) (fs0 : Fs),
      buffersEmpty (applyEvs fs0 st.events) →
      buffersEmpty (applyEvs fs0 (List.foldl (appendLine logDir logPre logExt) st l).events)
      ∧ ∀ q, (applyEvs fs0 (List.foldl (appendLine logDir logPre logExt) st l).events q).durable
          = (applyEvs fs0 st.events q).durable
              ++ (l.filter fun e => dailyLogPath logDir logPre logExt e.day = q).map Entry.line
  | [], st, fs0, hg => ⟨hg, fun q => by simp⟩
  | e :: l, st, fs0, hg => by
      obtain ⟨hb1, hd1⟩ := applyEvs_appendLine logDir logPre logExt st e fs0 hg
      obtain ⟨hb2, hd2⟩ := fs_foldl_invariant logDir logPre logExt l
        (appendLine logDir logPre logExt st e) fs0 hb1
      rw [List.foldl_cons]
      refine ⟨hb2, fun q => ?_⟩
      rw [hd2 q, hd1 q]
      by_cases hq : dailyLogPath logDir logPre logExt e.day = q <;>
        simp [hq, List.filter_cons, List.append_assoc]

/-- Flush-after-every-write is preserved by trace concatenation. -/
theorem flushAfterWrite_append : ∀ l1 l2 : List Ev,
    flushAfterWrite l1 → flushAfterWrite l2 → flushAfterWrite (l1 ++ l2)
  | [], _, _, h2 => h2
  | Ev.mkdirp _ :: rest, l2, h1, h2 => flushAfterWrite_append rest l2 h1 h2
  | Ev.openA _ :: rest, l2, h1, h2 => flushAfterWrite_append rest l2 h1 h2
  | Ev.close _ :: rest, l2, h1, h2 => flushAfterWrite_append rest l2 h1 h2
  | Ev.flush _ :: rest, l2, h1, h2 => flushAfterWrite_append rest l2 h1 h2
  | Ev.write _ _ :: rest, l2, h1, h2 => by
      obtain ⟨⟨r, hr⟩, hrest⟩ := h1
      subst hr
      exact ⟨⟨r ++ l2, rfl⟩, flushAfterWrite_append _ l2 hrest h2⟩

/-- One append step preserves flush-after-every-write. -/
theorem flushAfterWrite_appendLine (logDir logPre logExt : String) (st : WState) (e : Entry)
    (h : flushAfterWrite st.events) :
    flushAfterWrite (appendLine logDir logPre logExt st e).events := by
  unfold appendLine selectHandle
  by_cases hc : st.currentLogPath = some (dailyLogPath logDir logPre logExt e.day)
  · rw [if_pos hc]
    exact flushAfterWrite_append _ _ h ⟨⟨[], rfl⟩, trivial⟩
  · rw [if_neg hc]
    refine flushAfterWrite_append _ _
      (flushAfterWrite_append _ _ (flushAfterWrite_append _ _ h ?_) trivial)
      ⟨⟨[], rfl⟩, trivial⟩
    rcases st.currentLogPath with _ | p
    · exact trivial
    · exact trivial

/-- The loop's whole trace has a flush immediately after every write. -/
theorem flushAfterWrite_foldl (logDir logPre logExt : String) :
    ∀ (l : List Entry) (st : WState),
      flushAfterWrite st.events →
      flushAfterWrite (List.foldl (appendLine logDir logPre logExt) st l).events
  | [], _, h => h
  | e :: l, st, h =>
      flushAfterWrite_foldl logDir logPre logExt l (appendLine logDir logPre logExt st e)
        (flushAfterWrite_appendLine logDir logPre logExt st e h)

/-- Closes-flushed traces compose over concatenation. -/
theorem closesFlushed_append : ∀ (l1 l2 : List Ev) (fs : Fs),
    closesFlushed fs l1 → closesFlushed (applyEvs fs l1) l2 → closesFlushed fs (l1 ++ l2)
  | [], _, _, _, h2 => h2
  | ev :: rest, l2, fs, h1, h2 =>
      ⟨h1.1, closesFlushed_append rest l2 (applyEv fs ev) h1.2 h2⟩

/-- A trace headed by a non-close event is closes-flushed when its tail is. -/
theorem closesFlushed_cons_not_close (fs : Fs) (ev : Ev) (rest : List Ev)
    (hev : ∀ p, ev ≠ Ev.close p) (h : closesFlushed (applyEv fs ev) rest) :
    closesFlushed fs (ev :: rest) :=
  ⟨fun p hp => absurd hp (hev p), h⟩

/-- A trace headed by a close of an already-flushed file is closes-flushed
when its tail is. -/
theorem closesFlushed_cons_close (fs : Fs) (p : FPath) (rest : List Ev)
    (hb : (fs p).buffer = []) (h : closesFlushed (applyEv fs (Ev.close p)) rest) :
    closesFlushed fs (Ev.close p :: rest) := by
  refine ⟨fun p2 hp => ?_, h⟩
  injection hp with h2
  subst h2
  exact hb

/-- Any write-then-flush pair is closes-flushed. -/
theorem closesFlushed_write_flush (fs : Fs) (t : FPath) (s : String) :
    closesFlushed fs [Ev.write t s, Ev.flush t] :=
  closesFlushed_cons_not_close _ _ _ (fun _ hp => nomatch hp)
    (closesFlushed_cons_not_close _ _ _ (fun _ hp => nomatch hp) trivial)

/-- One append step closes only files with empty buffers, provided every
buffer is empty when it starts. -/
theorem closesFlushed_appendLine (logDir logPre logExt : String) (st : WState) (e : Entry)
    (fs0 : Fs) (hg : buffersEmpty (applyEvs fs0 st.events))
    (h : closesFlushed fs0 st.events) :
    closesFlushed fs0 (appendLine logDir logPre logExt st e).events := by
  unfold appendLine selectHandle
  by_cases hc : st.currentLogPath = some (dailyLogPath logDir logPre logExt e.day)
  · rw [if_pos hc]
    exact closesFlushed_append _ _ _ h (closesFlushed_write_flush _ _ _)
  · rw [if_neg hc]
    refine closesFlushed_append _ _ _
      (closesFlushed_append _ _ _ (closesFlushed_append _ _ _ h ?_)
        (closesFlushed_cons_not_close _ _ _ (fun _ hp => nomatch hp) trivial))
      (closesFlushed_write_flush _ _ _)
    rcases st.currentLogPath with _ | p
    · exact trivial
    · exact closesFlushed_cons_close _ _ _ (hg p) trivial

/-- The loop's whole trace closes only files with empty buffers. -/
theorem closesFlushed_foldl (logDir logPre logExt : String) :
    ∀ (l : List Entry) (st : WState) (fs0 : Fs),
      buffersEmpty (applyEvs fs0 st.events) → closesFlushed fs0 st.events →
      closesFlushed fs0 (List.foldl (appendLine logDir logPre logExt) st l).events
  | [], _, _, _, h => h
  | e :: l, st, fs0, hg, h =>
      closesFlushed_foldl logDir logPre logExt l (appendLine logDir logPre logExt st e) fs0
        (applyEvs_appendLine logDir logPre logExt st e fs0 hg).1
        (closesFlushed_appendLine logDir logPre logExt st e fs0 hg h)

/-- Handle replay distributes over trace concatenation. -/
theorem runHandles_append : ∀ (l1 l2 : List Ev) (o : Option FPath),
    runHandles o (l1 ++ l2) = (runHandles o l1).bind fun o2 => runHandles o2 l2
  | [], l2, o => by cases o <;> rfl
  | Ev.mkdirp _ :: rest, l2, o => by
      cases o <;> exact runHandles_append rest l2 _
  | Ev.openA p :: rest, l2, o => by
      cases o with
      | none => exact runHandles_append rest l2 (some p)
      | some q => rfl
  | Ev.close p :: rest, l2, o => by
      cases o with
      | none => rfl
      | some q =>
          by_cases h : p = q
          · show (if p = q then runHandles none (rest ++ l2) else none)
              = ((if p = q then runHandles none rest else none).bind _)
            rw [if_pos h, if_pos h]
            exact runHandles_append rest l2 none
          · show (if p = q then runHandles none (rest ++ l2) else none)
              = ((if p = q then runHandles none rest else none).bind _)
            rw [if_neg h, if_neg h]
            rfl
  | Ev.write _ _ :: rest, l2, o => by
      cases o <;> exact runHandles_append rest l2 _
  | Ev.flush _ :: rest, l2, o => by
      cases o <;> exact runHandles_append rest l2 _

/-- Selecting a handle keeps the trace well formed and leaves exactly the
tracked handle open. -/
theorem runHandles_selectHandle (logDir logPre logExt : String) (st : WState) (day : String)
    (h : runHandles none st.events = some st.currentLogPath) :
    runHandles none (selectHandle logDir logPre logExt st day).events
      = some (selectHandle logDir logPre logExt st day).currentLogPath := by
  unfold selectHandle
  by_cases hc : st.currentLogPath = some (dailyLogPath logDir logPre logExt day)
  · rw [if_pos hc]
    exact h
  · rw [if_neg hc]
    show runHandles none ((st.events ++ closeEvts st.currentLogPath)
        ++ [Ev.openA (dailyLogPath logDir logPre logExt day)]) = _
    rw [runHandles_append, runHandles_append, h]
    rcases st.currentLogPath with _ | p
    · rfl
    · show Option.bind (Option.bind (some (some p)) fun o2 => runHandles o2 [Ev.close p]) _ = _
      show Option.bind (if p = p then runHandles none [] else none) _ = _
      rw [if_pos rfl]
      rfl

/-- One append keeps the trace well formed and leaves exactly the tracked
handle open. -/
theorem runHandles_appendLine (logDir logPre logExt : String) (st : WState) (e : Entry)
    (h : runHandles none st.events = some st.currentLogPath) :
    runHandles none (appendLine logDir logPre logExt st e).events
      = some (appendLine logDir logPre logExt st e).currentLogPath := by
  unfold appendLine
  rw [runHandles_append, runHandles_selectHandle logDir logPre logExt st e.day h]
  have hcur := selectHandle_currentLogPath logDir logPre logExt st e.day
  rw [hcur]
  rfl

/-- The whole loop keeps the trace well formed, with exactly the tracked
handle open. -/
theorem runHandles_foldl (logDir logPre logExt : String) :
    ∀ (l : List Entry) (st : WState),
      runHandles none st.events = some st.currentLogPath →
      runHandles none (List.foldl (appendLine logDir logPre logExt) st l).events
        = some (List.foldl (appendLine logDir logPre logExt) st l).currentLogPath
  | [], _, h => h
  | e :: l, st, h =>
      runHandles_foldl logDir logPre logExt l (appendLine logDir logPre logExt st e)
        (runHandles_appendLine logDir logPre logExt st e h)

/-- The loop's trace is well formed, leaving open exactly the handle the
loop tracks. -/
theorem runHandles_runWriter (logDir logPre logExt : String) (entries : List Entry) :
    runHandles none (writerEvents logDir logPre logExt entries)
      = some (runWriter logDir logPre logExt entries).currentLogPath :=
  runHandles_foldl logDir logPre logExt entries ⟨none, []⟩ rfl

/-- A well-formed trace followed by the close of its open handle releases
everything. -/
theorem runHandles_writer_close (st : WState)
    (h : runHandles none st.events = some st.currentLogPath) :
    runHandles none (st.events ++ closeEvts st.currentLogPath) = some none := by
  rw [runHandles_append, h]
  show runHandles st.currentLogPath (closeEvts st.currentLogPath) = some none
  rcases st.currentLogPath with _ | p
  · rfl
  · show (if p = p then runHandles none [] else none) = some none
    rw [if_pos rfl]
    rfl

/-- C1: in one run, the sequence of lines written to each file equals, in
order, the sub-sequence of child output whose computed destination is that
file — so every line lands in exactly one file and none is dropped; and
when the output splits as an earlier-date block followed by a later-date
block, the earlier block goes only to the earlier date's file, the later
block only to the later date's file, and no other file receives anything. -/
theorem c1_line_routing :
    ∀ (logDir logPre logExt : String) (entries : List Entry) (code : Int),
      (∀ q : FPath,
          writesTo q (runWithDailyLogs logDir logPre logExt (.completes entries code)).events
            = (entries.filter fun e => dailyLogPath logDir logPre logExt e.day = q).map Entry.line)
      ∧ (∀ (l1 l2 : List Entry) (d1 d2 : String),
          entries = l1 ++ l2 → (∀ e ∈ l1, e.day = d1) → (∀ e ∈ l2, e.day = d2) → d1 ≠ d2 →
            writesTo (dailyLogPath logDir logPre logExt d1)
                (runWithDailyLogs logDir logPre logExt (.completes entries code)).events
              = l1.map Entry.line
            ∧ writesTo (dailyLogPath logDir logPre logExt d2)
                (runWithDailyLogs logDir logPre logExt (.completes entries code)).events
              = l2.map Entry.line
            ∧ ∀ q : FPath, q ≠ dailyLogPath logDir logPre logExt d1 →
                q ≠ dailyLogPath logDir logPre logExt d2 →
                writesTo q
                  (runWithDailyLogs logDir logPre logExt (.completes entries code)).events
                  = []) := by
  intro logDir logPre logExt entries code
  refine ⟨writesTo_run logDir logPre logExt entries code, ?_⟩
  intro l1 l2 d1 d2 hsplit h1 h2 hne
  subst hsplit
  refine ⟨?_, ?_, ?_⟩
  · rw [writesTo_run, List.filter_append]
    have hl1 : l1.filter
        (fun e => dailyLogPath logDir logPre logExt e.day
          = dailyLogPath logDir logPre logExt d1) = l1 := by
      rw [List.filter_eq_self]
      intro e he
      rw [h1 e he]
      simp
    have hl2 : l2.filter
        (fun e => dailyLogPath logDir logPre logExt e.day
          = dailyLogPath logDir logPre logExt d1) = [] := by
      rw [List.filter_eq_nil_iff]
      intro e he
      rw [h2 e he]
      simp only [decide_eq_true_eq]
      intro hc
      exact hne (dailyLogPath_inj_day logDir logPre logExt d1 d2
        ((dailyLogPath_inj_day logDir logPre logExt d2 d1 hc) ▸ rfl))
    rw [hl1, hl2, List.append_nil]
  · rw [writesTo_run, List.filter_append]
    have hl1 : l1.filter
        (fun e => dailyLogPath logDir logPre logExt e.day
          = dailyLogPath logDir logPre logExt d2) = [] := by
      rw [List.filter_eq_nil_iff]
      intro e he
      rw [h1 e he]
      simp only [decide_eq_true_eq]
      intro hc
      exact hne (dailyLogPath_inj_day logDir logPre logExt d1 d2 hc)
    have hl2 : l2.filter
        (fun e => dailyLogPath logDir logPre logExt e.day
          = dailyLogPath logDir logPre logExt d2) = l2 := by
      rw [List.filter_eq_self]
      intro e he
      rw [h2 e he]
      simp
    rw [hl1, hl2, List.nil_append]
  · intro q hq1 hq2
    rw [writesTo_run, List.filter_append]
    have hl1 : l1.filter
        (fun e => dailyLogPath logDir logPre logExt e.day = q) = [] := by
      rw [List.filter_eq_nil_iff]
      intro e he
      rw [h1 e he]
      simp only [decide_eq_true_eq]
      intro hc
      exact hq1 hc.symm
    have hl2 : l2.filter
        (fun e => dailyLogPath logDir logPre logExt e.day = q) = [] := by
      rw [List.filter_eq_nil_iff]
      intro e he
      rw [h2 e he]
      simp only [decide_eq_true_eq]
      intro hc
      exact hq2 hc.symm
    rw [hl1, hl2]
    rfl

/-- C3: the loop flushes immediately after every single write; hence after
the first `k` lines have been appended (a trace that is a prefix of the
full run's trace), every buffer is empty and each file durably holds
exactly the lines among the first `k` routed to it — a crash at that point
loses nothing already appended. -/
theorem c3_flush_per_line :
    ∀ (logDir logPre logExt : String) (entries : List Entry) (k : Nat) (q : FPath)
      (d : FPath → List String),
      flushAfterWrite (writerEvents logDir logPre logExt entries)
      ∧ (applyEvs (initFs d) (writerEvents logDir logPre logExt (entries.take k)) q).durable
          = d q ++ ((entries.take k).filter fun e =>
              dailyLogPath logDir logPre logExt e.day = q).map Entry.line
      ∧ (applyEvs (initFs d) (writerEvents logDir logPre logExt (entries.take k)) q).buffer = []
      ∧ writerEvents logDir logPre logExt (entries.take k)
          <+: writerEvents logDir logPre logExt entries := by
  intro logDir logPre logExt entries k q d
  obtain ⟨hb, hd⟩ := fs_foldl_invariant logDir logPre logExt (entries.take k) ⟨none, []⟩
    (initFs d) (fun _ => rfl)
  refine ⟨flushAfterWrite_foldl logDir logPre logExt entries ⟨none, []⟩ trivial,
    ?_, hb q, ?_⟩
  · exact hd q
  · unfold writerEvents runWriter
    obtain ⟨t, ht⟩ := foldl_appendLine_events logDir logPre logExt (entries.drop k)
      (List.foldl (appendLine logDir logPre logExt) ⟨none, []⟩ (entries.take k))
    refine ⟨t, ?_⟩
    conv_rhs => rw [← List.take_append_drop k entries]
    rw [List.foldl_append]
    exact ht.symm

/-- C2: on each append the destination is recomputed; when it equals the
open handle's path the handle and trace are extended only by the write and
flush (idempotent selection); when it differs (or none is open) the old
handle is closed first and the target is opened; every close in a full run
hits a file whose buffer is already empty (nothing unflushed is lost at
close); opening is in append mode — any pre-existing durable contents are
preserved and only appended to; and the log directory is created, before
any open, at the start of every run. -/
theorem c2_handle_selection :
    ∀ logDir logPre logExt : String,
      (∀ (st : WState) (e : Entry),
          st.currentLogPath = some (dailyLogPath logDir logPre logExt e.day) →
            (appendLine logDir logPre logExt st e).currentLogPath = st.currentLogPath
            ∧ (appendLine logDir logPre logExt st e).events
                = st.events ++ [Ev.write (dailyLogPath logDir logPre logExt e.day) e.line,
                    Ev.flush (dailyLogPath logDir logPre logExt e.day)])
      ∧ (∀ (st : WState) (e : Entry),
          st.currentLogPath ≠ some (dailyLogPath logDir logPre logExt e.day) →
            (appendLine logDir logPre logExt st e).currentLogPath
              = some (dailyLogPath logDir logPre logExt e.day)
            ∧ (appendLine logDir logPre logExt st e).events
                = st.events ++ closeEvts st.currentLogPath
                    ++ [Ev.openA (dailyLogPath logDir logPre logExt e.day),
                        Ev.write (dailyLogPath logDir logPre logExt e.day) e.line,
                        Ev.flush (dailyLogPath logDir logPre logExt e.day)])
      ∧ (∀ (entries : List Entry) (code : Int) (d : FPath → List String),
          closesFlushed (initFs d)
            (runWithDailyLogs logDir logPre logExt (.completes entries code)).events)
      ∧ (∀ (entries : List Entry) (code : Int) (d : FPath → List String) (q : FPath),
          (applyEvs (initFs d)
              (runWithDailyLogs logDir logPre logExt (.completes entries code)).events
              q).durable
            = d q ++ writesTo q
                (runWithDailyLogs logDir logPre logExt (.completes entries code)).events)
      ∧ (∀ b : ChildBehavior, ∃ rest : List Ev,
          (runWithDailyLogs logDir logPre logExt b).events = Ev.mkdirp logDir :: rest) := by
  intro logDir logPre logExt
  refine ⟨?_, ?_, ?_, ?_, ?_⟩
  · intro st e h
    unfold appendLine selectHandle
    rw [if_pos h]
    exact ⟨rfl, rfl⟩
  · intro st e h
    unfold appendLine selectHandle
    rw [if_neg h]
    refine ⟨rfl, ?_⟩
    show (st.events ++ closeEvts st.currentLogPath
        ++ [Ev.openA (dailyLogPath logDir logPre logExt e.day)]) ++ _ = _
    simp [List.append_assoc]
  · intro entries code d
    refine closesFlushed_cons_not_close _ _ _ (fun _ hp => nomatch hp) ?_
    have hwriter := closesFlushed_foldl logDir logPre logExt entries ⟨none, []⟩ (initFs d)
      (fun _ => rfl) trivial
    refine closesFlushed_append _ _ _ hwriter ?_
    have hb := (fs_foldl_invariant logDir logPre logExt entries ⟨none, []⟩ (initFs d)
      (fun _ => rfl)).1
    cases hcur : (runWriter logDir logPre logExt entries).currentLogPath with
    | none => exact trivial
    | some p => exact closesFlushed_cons_close _ _ _ (hb p) trivial
  · intro entries code d q
    obtain ⟨hb, hd⟩ := fs_foldl_invariant logDir logPre logExt entries ⟨none, []⟩ (initFs d)
      (fun _ => rfl)
    show (applyEvs (initFs d)
        ((runWriter logDir logPre logExt entries).events
          ++ closeEvts (runWriter logDir logPre logExt entries).currentLogPath) q).durable = _
    rw [applyEvs_append]
    have hclose : applyEvs (applyEvs (initFs d) (runWriter logDir logPre logExt entries).events)
        (closeEvts (runWriter logDir logPre logExt entries).currentLogPath)
        = applyEvs (initFs d) (runWriter logDir logPre logExt entries).events := by
      cases hcur : (runWriter logDir logPre logExt entries).currentLogPath with
      | none => rfl
      | some p =>
          show applyEv _ (Ev.close p) = _
          exact applyEv_close_of_flushed _ p (hb p)
    rw [hclose, writesTo_run]
    exact hd q
  · intro b
    cases b with
    | launchFailure => exact ⟨_, rfl⟩
    | completes entries code => exact ⟨_, rfl⟩
    | interrupted entries sr ce => exact ⟨_, rfl⟩
    | ioErrorAtWrite processed failing => exact ⟨_, rfl⟩

/-- C4: the exit code is a total function of the outcome — the child's own
exit status on normal stream end (after waiting for it), the fixed 130 on
interruption whatever the child's own status, and 1 both on launch failure
(which writes no log entries) and on any other propagated error. -/
theorem c4_exit_codes :
    ∀ logDir logPre logExt : String,
      (∀ (entries : List Entry) (code : Int),
          mainExitCode logDir logPre logExt (.completes entries code) = code
          ∧ (runWithDailyLogs logDir logPre logExt (.completes entries code)).waitedForChild
              = true)
      ∧ (∀ (entries : List Entry) (stillRunning : Bool) (childExit : Int),
          mainExitCode logDir logPre logExt (.interrupted entries stillRunning childExit) = 130)
      ∧ mainExitCode logDir logPre logExt .launchFailure = 1
      ∧ (∀ (p : FPath) (s : String),
          Ev.write p s ∉ (runWithDailyLogs logDir logPre logExt .launchFailure).events)
      ∧ (∀ (processed : List Entry) (failing : Entry),
          mainExitCode logDir logPre logExt (.ioErrorAtWrite processed failing) = 1) := by
  intro logDir logPre logExt
  refine ⟨fun _ _ => ⟨rfl, rfl⟩, fun _ _ _ => rfl, rfl, ?_, fun _ _ => rfl⟩
  intro p s hmem
  simp [runWithDailyLogs] at hmem

/-- C5: on interruption during the read loop with the child still running,
the supervisor requests the child's termination and waits for it, and the
run's outcome is the fixed cancellation status 130 whatever the child's own
exit status would be. -/
theorem c5_interruption :
    ∀ (logDir logPre logExt : String) (entries : List Entry) (childExit : Int),
      (runWithDailyLogs logDir logPre logExt
          (.interrupted entries true childExit)).terminateRequested = true
      ∧ (runWithDailyLogs logDir logPre logExt
          (.interrupted entries true childExit)).waitedForChild = true
      ∧ (∀ stillRunning : Bool,
          (runWithDailyLogs logDir logPre logExt
              (.interrupted entries stillRunning childExit)).outcome = some 130) := by
  intro logDir logPre logExt entries childExit
  exact ⟨rfl, rfl, fun _ => rfl⟩

/-- C6: on every exit path (normal completion, interruption, launch
failure, a propagated write error) the run's trace opens and closes log
handles in a well-nested single-handle discipline and ends with no handle
open, and the stream handle, when it was opened, is closed; moreover after
any processed line the single open handle's path is the destination
computed for that (most recent) line. -/
theorem c6_handle_release :
    ∀ logDir logPre logExt : String,
      (∀ b : ChildBehavior,
          ((runWithDailyLogs logDir logPre logExt b).streamOpened = true →
            (runWithDailyLogs logDir logPre logExt b).streamClosed = true)
          ∧ runHandles none (runWithDailyLogs logDir logPre logExt b).events = some none)
      ∧ (∀ (l1 : List Entry) (e : Entry),
          (runWriter logDir logPre logExt (l1 ++ [e])).currentLogPath
            = some (dailyLogPath logDir logPre logExt e.day)
          ∧ runHandles none (writerEvents logDir logPre logExt (l1 ++ [e]))
              = some (some (dailyLogPath logDir logPre logExt e.day))) := by
  intro logDir logPre logExt
  constructor
  · intro b
    cases b with
    | launchFailure => exact ⟨fun h => Bool.noConfusion h, rfl⟩
    | completes entries code =>
        refine ⟨fun _ => rfl, ?_⟩
        show runHandles none ((runWriter logDir logPre logExt entries).events
            ++ closeEvts (runWriter logDir logPre logExt entries).currentLogPath) = some none
        exact runHandles_writer_close _ (runHandles_runWriter logDir logPre logExt entries)
    | interrupted entries sr ce =>
        refine ⟨fun _ => rfl, ?_⟩
        show runHandles none ((runWriter logDir logPre logExt entries).events
            ++ closeEvts (runWriter logDir logPre logExt entries).currentLogPath) = some none
        exact runHandles_writer_close _ (runHandles_runWriter logDir logPre logExt entries)
    | ioErrorAtWrite processed failing =>
        refine ⟨fun _ => rfl, ?_⟩
        show runHandles none
            ((selectHandle logDir logPre logExt (runWriter logDir logPre logExt processed)
                failing.day).events
              ++ closeEvts (selectHandle logDir logPre logExt
                  (runWriter logDir logPre logExt processed) failing.day).currentLogPath)
            = some none
        exact runHandles_writer_close _
          (runHandles_selectHandle logDir logPre logExt _ failing.day
            (runHandles_runWriter logDir logPre logExt processed))
  · intro l1 e
    have hsplit : runWriter logDir logPre logExt (l1 ++ [e])
        = appendLine logDir logPre logExt (runWriter logDir logPre logExt l1) e := by
      unfold runWriter
      rw [List.foldl_append]
      rfl
    refine ⟨?_, ?_⟩
    · rw [hsplit]
      exact appendLine_currentLogPath logDir logPre logExt _ e
    · rw [runHandles_runWriter logDir logPre logExt (l1 ++ [e]), hsplit,
        appendLine_currentLogPath]

end DailyLogRunner
